import Mathlib

/-!
A verification development for `rotation_logger.c` (a tee-like rotating
logger).  The definitions below are a shallow embedding of the program:

* the option-argument scanners (`sscanf ("%ld%c")` as used by the
  `--age`/`--size` cases of `main`, `atoi` as used by `--keep`),
* the option sanitising (clamping) block of `main`,
* the directory-entry filter `prefixFilter`, the sorted enumeration done
  by `scandir`+`alphasort`, and the purge loop of `purgeOldFiles`,
* the copy/rotation loop of `main` as a state machine over an explicit
  state record, with wall-clock times and `strftime`-generated file names
  supplied as inputs.

Byte values are modelled as `Nat` (a line terminator is byte 10), sizes as
`Nat` (`size_t`), times and signed quantities as `Int`.  Writes are taken
to transfer their full byte count.
-/

-- ======================== definitions ========================

/-- The `isspace` character set used by `sscanf`/`atoi` to skip leading
whitespace: space, tab, newline, carriage return, vertical tab, form feed. -/
def isSpc (c : Char) : Bool :=
  c == ' ' || c == '\t' || c == '\n' || c == '\r' ||
  c == Char.ofNat 11 || c == Char.ofNat 12

/-- Numeric value of a list of decimal digit characters (most significant
first), as accumulated by a base-10 conversion. -/
def digitsVal (ds : List Char) : Nat :=
  ds.foldl (fun a c => 10 * a + (c.toNat - 48)) 0

/-- One `%ld` conversion of `sscanf`: skip leading whitespace, accept an
optional sign, then a nonempty run of decimal digits.  Returns the value and
the unconsumed remainder of the input, or `none` on a matching failure
(no digits found). -/
def scanNum (s : List Char) : Option (Int × List Char) :=
  let body : List Char → Int → Option (Int × List Char) := fun r sgn =>
    let ds := r.takeWhile Char.isDigit
    if ds = [] then none
    else some (sgn * (digitsVal ds : Int), r.dropWhile Char.isDigit)
  match s.dropWhile isSpc with
  | [] => none
  | c :: r =>
    if c = '-' then body r (-1)
    else if c = '+' then body r 1
    else body (c :: r) 1

/-- `sscanf (optarg, "%ld%c", &value, &xx)`: `none` models a return value
`n < 1` (no number matched), `some (v, none)` models `n = 1` (number matched,
input exhausted, `xx` keeps its initial value), and `some (v, some c)` models
`n = 2` (`%c` grabbed the very next character, verbatim). -/
def scanLdC (s : List Char) : Option (Int × Option Char) :=
  match scanNum s with
  | none => none
  | some (v, []) => some (v, none)
  | some (v, c :: _) => some (v, some c)

/-- The `case 'a'` branch of `main`: scan the `--age` argument, apply the
duration qualifier (`m`, `h`, `d`, `w`), treat a trailing space like no
qualifier (the code initialises `xx = ' '` and ignores that value), and fail
(usage message, exit status 1) on any other qualifier or on a scan failure. -/
def ageFromArg (s : List Char) : Option Int :=
  match scanLdC s with
  | none => none
  | some (v, none) => some v
  | some (v, some x) =>
    if x = ' ' then some v
    else if x = 'm' then some (v * 60)
    else if x = 'h' then some (v * 3600)
    else if x = 'd' then some (v * 86400)
    else if x = 'w' then some (v * 604800)
    else none

/-- The `case 's'` branch of `main`: scan the `--size` argument, apply the
size qualifier (`K`, `M`, `G`), treat a trailing space like no qualifier, and
fail (usage message, exit status 1) otherwise. -/
def sizeFromArg (s : List Char) : Option Int :=
  match scanLdC s with
  | none => none
  | some (v, none) => some v
  | some (v, some x) =>
    if x = ' ' then some v
    else if x = 'K' then some (v * 1000)
    else if x = 'M' then some (v * 1000000)
    else if x = 'G' then some (v * 1000000000)
    else none

/-- The `case 'k'` branch of `main` is `numberToKeep = atoi (optarg)`:
`atoi` skips whitespace, accepts an optional sign then a digit run, and
yields 0 when no digits are found; it never fails. -/
def atoiChars (s : List Char) : Int :=
  match s.dropWhile isSpc with
  | [] => 0
  | c :: r =>
    if c = '-' then -(digitsVal (r.takeWhile Char.isDigit) : Int)
    else if c = '+' then (digitsVal (r.takeWhile Char.isDigit) : Int)
    else (digitsVal ((c :: r).takeWhile Char.isDigit) : Int)

/-- `if (ageLimit < 10) ageLimit = 10;` -/
def sanitiseAge (a : Int) : Int := if a < 10 then 10 else a

/-- `if (sizeLimit < 20) sizeLimit = 20;` -/
def sanitiseSize (s : Int) : Int := if s < 20 then 20 else s

/-- `if (numberToKeep < 1) numberToKeep = 1;` -/
def sanitiseKeep (k : Int) : Int := if k < 1 then 1 else k

/-- Duration qualifiers of the `--age` argument with their multipliers. -/
def ageUnits : List (Char × Int) := [('m', 60), ('h', 3600), ('d', 86400), ('w', 604800)]

/-- Size qualifiers of the `--size` argument with their multipliers. -/
def sizeUnits : List (Char × Int) := [('K', 1000), ('M', 1000000), ('G', 1000000000)]

/-- The fixed ".log" file name ending. -/
def dotLog : List Char := ['.', 'l', 'o', 'g']

/-- `snprintf (thePrefix, ..., "%s_", prefix)`: the static pattern used by
the directory-entry filter is the file name stem followed by '_'. -/
def mkStemU (stem : List Char) : List Char := stem ++ ['_']

/-- The `prefixFilter` predicate of the source: a directory entry is a log
file of this logger when its length is the pattern's length plus 23, its
first characters equal the pattern, and its last four characters are ".log".
The 19 characters of the date part are not inspected. -/
def nameFilter (stemU : List Char) (nm : List Char) : Bool :=
  let pl := stemU.length
  let dl := nm.length
  if dl = pl + 23 then
    decide (nm.take pl = stemU) && decide (nm.drop (dl - 4) = dotLog)
  else false

/-- `strcmp`-style lexicographic comparison on names, the order used by
`alphasort`. -/
def lexLe : List Char → List Char → Bool
  | [], _ => true
  | _ :: _, [] => false
  | a :: as, b :: bs => if a < b then true else if b < a then false else lexLe as bs

/-- Insertion of a name into a sorted list of names, ascending by `lexLe`. -/
def insertName (x : List Char) : List (List Char) → List (List Char)
  | [] => [x]
  | y :: ys => if lexLe x y then x :: y :: ys else y :: insertName x ys

/-- Sorting a list of names ascending by `lexLe` (insertion sort). -/
def sortNames : List (List Char) → List (List Char)
  | [] => []
  | x :: xs => insertName x (sortNames xs)

/-- `scandir (directory, &namelist, prefixFilter, alphasort)`: the matching
entries of the directory, sorted ascending by name. -/
def listLogFiles (entries : List (List Char)) (stemU : List Char) : List (List Char) :=
  sortNames (entries.filter (nameFilter stemU))

/-- The deletion loop of `purgeOldFiles`: entry `j` of the sorted matching
list is unlinked when `j < n - numberToKeep`.  `purgeLoop m j xs` returns the
(deleted, kept) split of `xs`, whose first element has index `j`, deleting
indices below `m`. -/
def purgeLoop (m : Int) : Int → List (List Char) → List (List Char) × List (List Char)
  | _, [] => ([], [])
  | j, x :: xs =>
    let p := purgeLoop m (j + 1) xs
    if j < m then (x :: p.1, p.2) else (p.1, x :: p.2)

/-- The (deleted, kept) partition `purgeOldFiles` produces on the sorted
matching list. -/
def purgeSelect (names : List (List Char)) (numberToKeep : Int) :
    List (List Char) × List (List Char) :=
  purgeLoop ((names.length : Int) - numberToKeep) 0 names

/-- `purgeOldFiles (directory, prefix, numberToKeep)` as a function on the
directory contents: the entries that survive are those not unlinked by the
purge loop. -/
def purgeOldFiles (entries : List (List Char)) (stemU : List Char)
    (numberToKeep : Int) : List (List Char) :=
  let del := (purgeSelect (listLogFiles entries stemU) numberToKeep).1
  entries.filter (fun nm => decide (nm ∉ del))

/-- The three example file names of the purge scenario. -/
def exampleNames : List (List Char) :=
  [['p', '_', '2', '0', '2', '4', '-', '0', '1', '-', '0', '1', '_', '0', '0', '-', '0', '0', '-', '0', '1', '.', 'l', 'o', 'g'],
   ['p', '_', '2', '0', '2', '4', '-', '0', '1', '-', '0', '1', '_', '0', '0', '-', '0', '0', '-', '0', '0', '.', 'l', 'o', 'g'],
   ['p', '_', '2', '0', '2', '4', '-', '0', '1', '-', '0', '1', '_', '0', '0', '-', '0', '0', '-', '0', '2', '.', 'l', 'o', 'g']]

/-- A closed log file as produced by a rotation: its final content on disk,
and whether a line terminator was appended to it when it was closed. -/
structure LogFileRec where
  content : List Nat
  appended : Bool
deriving DecidableEq, Repr

/-- The state of the copy loop of `main`: bytes copied to standard output so
far, the closed log files in creation order, the bytes written to the
current file, the running byte counter `total`, the `last_char` variable,
the `lastTime` timestamp (creation time of the current file), and the names
present in the log directory. -/
structure RotState where
  outS : List Nat
  closed : List LogFileRec
  cur : List Nat
  total : Nat
  lastChar : Nat
  lastTime : Int
  disk : List (List Char)
deriving DecidableEq, Repr

/-- One iteration's input: the chunk `read` returned (the loop body runs
only for `numberRead > 0`), the wall-clock time `time (&thisTime)` observed
in that iteration, and the file name `strftime`/`snprintf` would produce
were a new file created at that time. -/
structure ReadEv where
  chunk : List Nat
  time : Int
  nm : List Char
deriving DecidableEq, Repr

/-- The sanitised option values and the file-name stem pattern. -/
structure Policy where
  ageLimit : Int
  sizeLimit : Nat
  keepN : Int
  stemU : List Char
deriving DecidableEq, Repr

/-- The line terminator byte. -/
def nlByte : Nat := 10

/-- The rotation condition of the copy loop:
`(age >= ageLimit) || ((total >= sizeLimit) && (age >= 1))`. -/
def shouldRotate (P : Policy) (age : Int) (total : Nat) : Bool :=
  decide (age ≥ P.ageLimit) || (decide (total ≥ P.sizeLimit) && decide (age ≥ 1))

/-- Closing the current file at a rotation: if `last_char` is not a line
terminator, exactly one is appended (`write (fd, newline, 1)`). -/
def closeRec (cur : List Nat) (lastChar : Nat) : LogFileRec :=
  if lastChar = nlByte then ⟨cur, false⟩ else ⟨cur ++ [nlByte], true⟩

/-- `nextFile`'s effect on the directory: first `purgeOldFiles`, then
`creat` of the freshly named file. -/
def openNextDisk (P : Policy) (disk : List (List Char)) (nm : List Char) :
    List (List Char) :=
  purgeOldFiles disk P.stemU P.keepN ++ [nm]

/-- The rotation block of the copy loop: append a line terminator to the
current file when needed, `close (fd)`, `fd = nextFile (...)` (purge, then
create), `time (&lastTime)`, `total = 0`. -/
def rotateOp (P : Policy) (s : RotState) (now : Int) (nm : List Char) : RotState :=
  { outS := s.outS
    closed := s.closed ++ [closeRec s.cur s.lastChar]
    cur := []
    total := 0
    lastChar := s.lastChar
    lastTime := now
    disk := openNextDisk P s.disk nm }

/-- One iteration of the copy loop body for a chunk with `numberRead > 0`:
write the chunk to standard output and to the current file, advance `total`,
update `last_char` to the chunk's last byte, then rotate when the
size/age condition holds. -/
def stepFn (P : Policy) (s : RotState) (e : ReadEv) : RotState :=
  let s2 : RotState :=
    { s with
      outS := s.outS ++ e.chunk
      cur := s.cur ++ e.chunk
      total := s.total + e.chunk.length
      lastChar := (e.chunk.getLast?).getD s.lastChar }
  if shouldRotate P (e.time - s.lastTime) (s.total + e.chunk.length)
  then rotateOp P s2 e.time e.nm
  else s2

/-- The whole copy loop over a finite input stream of read events. -/
def runLoop (P : Policy) (s : RotState) (evs : List ReadEv) : RotState :=
  evs.foldl (stepFn P) s

/-- The state right after startup: `nextFile` has created the first file
(named `nm0`, on disk `disk0`), `time (&lastTime)` was just called,
`total = 0` and `last_char = '\n'`. -/
def initState (t0 : Int) (disk0 : List (List Char)) : RotState :=
  { outS := [], closed := [], cur := [], total := 0, lastChar := nlByte,
    lastTime := t0, disk := disk0 }

/-- The bytes of a closed file that came from the input stream: its content
without the line terminator appended at close time, if one was. -/
def payload (f : LogFileRec) : List Nat :=
  if f.appended then f.content.dropLast else f.content

/-- Concatenation, in creation order, of the input-stream bytes of every
file produced so far (closed files, then the current one). -/
def allPayloads (s : RotState) : List Nat :=
  (s.closed.map payload).flatten ++ s.cur

/-- A well-formed closed file: a terminator was appended exactly when the
last input byte written to the file was not a terminator, and then exactly
one terminator was appended. -/
def goodRec (f : LogFileRec) : Prop :=
  (f.appended = true → f.content = payload f ++ [nlByte]
                       ∧ (payload f).getLast? ≠ some nlByte)
  ∧ (f.appended = false → (payload f).getLast? = some nlByte)

/-- Step 1 of a rotation, per the spec: append one line terminator to the
current file when its last written byte was not one; also says whether it
appended. -/
def stepAppendTerm (s : RotState) : RotState × Bool :=
  if s.lastChar = nlByte then (s, false) else ({ s with cur := s.cur ++ [nlByte] }, true)

/-- Step 2 of a rotation, per the spec: close the current file. -/
def stepCloseCur (p : RotState × Bool) : RotState :=
  { p.1 with closed := p.1.closed ++ [⟨p.1.cur, p.2⟩], cur := [] }

/-- First half of `openNext()`, per the spec: purge the directory. -/
def stepPurge (P : Policy) (s : RotState) : RotState :=
  { s with disk := purgeOldFiles s.disk P.stemU P.keepN }

/-- Second half of `openNext()`, per the spec: name and create the new file. -/
def stepCreate (s : RotState) (nm : List Char) : RotState :=
  { s with disk := s.disk ++ [nm] }

/-- Final step of a rotation, per the spec: reset the byte counter and the
creation timestamp. -/
def stepReset (s : RotState) (now : Int) : RotState :=
  { s with total := 0, lastTime := now }

/-- A small concrete policy for witness runs: age limit 10 s, size limit
5 bytes, keep 1 file. -/
def wPol : Policy := ⟨10, 5, 1, ['p', '_']⟩

/-- A small concrete input stream for witness runs: three nonempty chunks,
the second of which triggers a size rotation one second after start. -/
def wEvs : List ReadEv :=
  [⟨[65, 66, 67], 100, ['a']⟩, ⟨[68, 69], 101, ['b']⟩, ⟨[10], 101, ['c']⟩]

-- ======================== lemmas ========================

lemma isSpc_eq_false_of_digit {c : Char} (h : c.isDigit = true) : isSpc c = false := by
  cases ht : isSpc c
  · rfl
  · exfalso
    simp only [isSpc, Bool.or_eq_true, beq_iff_eq] at ht
    rcases ht with ((((rfl | rfl) | rfl) | rfl) | rfl) | rfl <;> exact absurd h (by decide)

lemma ne_dash_of_digit {c : Char} (h : c.isDigit = true) : ¬ (c = '-') :=
  fun e => absurd h (by subst e; decide)

lemma ne_plus_of_digit {c : Char} (h : c.isDigit = true) : ¬ (c = '+') :=
  fun e => absurd h (by subst e; decide)

lemma takeWhile_append_all {p : Char → Bool} (ds rest : List Char)
    (h1 : ∀ c ∈ ds, p c = true) (h2 : ∀ c, rest.head? = some c → p c = false) :
    (ds ++ rest).takeWhile p = ds ∧ (ds ++ rest).dropWhile p = rest := by
  induction ds with
  | nil =>
    simp only [List.nil_append]
    cases rest with
    | nil => simp
    | cons c r =>
      have hc := h2 c rfl
      exact ⟨by simp [List.takeWhile_cons, hc], by simp [List.dropWhile_cons, hc]⟩
  | cons d ds ih =>
    have hd : p d = true := h1 d (by simp)
    have ihh := ih (fun c hc => h1 c (by simp [hc]))
    exact ⟨by simp [List.takeWhile_cons, hd, ihh.1],
           by simp [List.dropWhile_cons, hd, ihh.2]⟩

lemma scanNum_digits (ds rest : List Char) (h1 : ds ≠ [])
    (h2 : ∀ c ∈ ds, c.isDigit = true)
    (h3 : ∀ c, rest.head? = some c → c.isDigit = false) :
    scanNum (ds ++ rest) = some ((digitsVal ds : Int), rest) := by
  obtain ⟨d, ds2, rfl⟩ : ∃ d ds2, ds = d :: ds2 := by
    cases ds with
    | nil => exact absurd rfl h1
    | cons d ds2 => exact ⟨d, ds2, rfl⟩
  have hd : d.isDigit = true := h2 d (by simp)
  have hspc : isSpc d = false := isSpc_eq_false_of_digit hd
  have htk := takeWhile_append_all (p := Char.isDigit) (d :: ds2) rest h2 h3
  unfold scanNum
  rw [List.cons_append, List.dropWhile_cons, hspc]
  simp only [Bool.false_eq_true, if_false]
  rw [if_neg (ne_dash_of_digit hd), if_neg (ne_plus_of_digit hd)]
  rw [← List.cons_append, htk.1, htk.2]
  simp

lemma scanNum_of_drop_cons {s : List Char} {c : Char} {r : List Char}
    (hsp : s.dropWhile isSpc = c :: r) :
    scanNum s =
      if c = '-' then
        (if r.takeWhile Char.isDigit = [] then none
         else some ((-1) * (digitsVal (r.takeWhile Char.isDigit) : Int), r.dropWhile Char.isDigit))
      else if c = '+' then
        (if r.takeWhile Char.isDigit = [] then none
         else some (1 * (digitsVal (r.takeWhile Char.isDigit) : Int), r.dropWhile Char.isDigit))
      else
        (if (c :: r).takeWhile Char.isDigit = [] then none
         else some (1 * (digitsVal ((c :: r).takeWhile Char.isDigit) : Int),
                    (c :: r).dropWhile Char.isDigit)) := by
  unfold scanNum
  rw [hsp]

lemma atoiChars_of_drop_cons {s : List Char} {c : Char} {r : List Char}
    (hsp : s.dropWhile isSpc = c :: r) :
    atoiChars s =
      if c = '-' then -(digitsVal (r.takeWhile Char.isDigit) : Int)
      else if c = '+' then (digitsVal (r.takeWhile Char.isDigit) : Int)
      else (digitsVal ((c :: r).takeWhile Char.isDigit) : Int) := by
  unfold atoiChars
  rw [hsp]

lemma scanLdC_digits_unit (ds : List Char) (u : Char) (rest : List Char) (h1 : ds ≠ [])
    (h2 : ∀ c ∈ ds, c.isDigit = true) (h3 : u.isDigit = false) :
    scanLdC (ds ++ u :: rest) = some ((digitsVal ds : Int), some u) := by
  unfold scanLdC
  rw [scanNum_digits ds (u :: rest) h1 h2 (fun c hc => by
    simp only [List.head?_cons, Option.some.injEq] at hc; rw [← hc]; exact h3)]

lemma scanLdC_digits_only (ds : List Char) (h1 : ds ≠ [])
    (h2 : ∀ c ∈ ds, c.isDigit = true) :
    scanLdC ds = some ((digitsVal ds : Int), none) := by
  unfold scanLdC
  have := scanNum_digits ds [] h1 h2 (fun c hc => by simp at hc)
  rw [List.append_nil] at this
  rw [this]

lemma purgeLoop_eq (m : Int) (xs : List (List Char)) :
    ∀ j : Int, purgeLoop m j xs = (xs.take (m - j).toNat, xs.drop (m - j).toNat) := by
  induction xs with
  | nil => intro j; simp [purgeLoop]
  | cons x xs ih =>
    intro j
    unfold purgeLoop
    rw [ih (j + 1)]
    by_cases hj : j < m
    · rw [if_pos hj]
      have h1 : (m - j).toNat = (m - (j + 1)).toNat + 1 := by omega
      rw [h1]
      simp [List.take_succ_cons, List.drop_succ_cons]
    · rw [if_neg hj]
      have h1 : (m - j).toNat = 0 := by omega
      have h2 : (m - (j + 1)).toNat = 0 := by omega
      rw [h1, h2]
      simp

lemma lexLe_cons_eq (x y : Char) (as bs : List Char) :
    lexLe (x :: as) (y :: bs) =
      if x < y then true else if y < x then false else lexLe as bs := rfl

lemma lexLe_cons (x y : Char) (as bs : List Char) :
    lexLe (x :: as) (y :: bs) = true ↔ (x < y ∨ (x = y ∧ lexLe as bs = true)) := by
  rw [lexLe_cons_eq]
  split_ifs with h1 h2
  · simp [h1]
  · simp only [Bool.false_eq_true, false_iff]
    rintro (h | ⟨rfl, _⟩)
    · exact h1 h
    · exact lt_irrefl x h2
  · have hxy : x = y := le_antisymm (not_lt.mp h2) (not_lt.mp h1)
    simp [hxy]

lemma lexLe_total : ∀ a b : List Char, (lexLe a b || lexLe b a) = true := by
  intro a
  induction a with
  | nil => intro b; simp [lexLe]
  | cons x as ih =>
    intro b
    cases b with
    | nil => simp [lexLe]
    | cons y bs =>
      rcases lt_trichotomy x y with h | h | h
      · simp [Bool.or_eq_true, lexLe_cons, h]
      · subst h
        have h2 := Bool.or_eq_true _ _ |>.mp (ih bs)
        rcases h2 with h2 | h2 <;> simp [Bool.or_eq_true, lexLe_cons, h2]
      · simp [Bool.or_eq_true, lexLe_cons, h]

lemma lexLe_trans : ∀ a b c : List Char,
    lexLe a b = true → lexLe b c = true → lexLe a c = true := by
  intro a
  induction a with
  | nil => intro b c _ _; simp [lexLe]
  | cons x as ih =>
    intro b c hab hbc
    cases b with
    | nil => simp [lexLe] at hab
    | cons y bs =>
      cases c with
      | nil => simp [lexLe] at hbc
      | cons z cs =>
        rw [lexLe_cons] at hab hbc ⊢
        rcases hab with h1 | ⟨rfl, h1⟩
        · rcases hbc with h2 | ⟨rfl, h2⟩
          · exact Or.inl (lt_trans h1 h2)
          · exact Or.inl h1
        · rcases hbc with h2 | ⟨rfl, h2⟩
          · exact Or.inl h2
          · exact Or.inr ⟨rfl, ih bs cs h1 h2⟩

lemma insertName_perm (x : List Char) (l : List (List Char)) :
    (insertName x l).Perm (x :: l) := by
  induction l with
  | nil => simp [insertName]
  | cons y ys ih =>
    unfold insertName
    split_ifs
    · exact List.Perm.refl _
    · exact (ih.cons y).trans (List.Perm.swap x y ys)

lemma sortNames_perm (l : List (List Char)) : (sortNames l).Perm l := by
  induction l with
  | nil => simp [sortNames]
  | cons x xs ih =>
    unfold sortNames
    exact (insertName_perm x (sortNames xs)).trans (ih.cons x)

lemma mem_insertName {z x : List Char} {l : List (List Char)} :
    z ∈ insertName x l ↔ z = x ∨ z ∈ l := by
  rw [(insertName_perm x l).mem_iff]
  simp

lemma insertName_pairwise (x : List Char) (l : List (List Char))
    (hl : l.Pairwise (fun a b => lexLe a b = true)) :
    (insertName x l).Pairwise (fun a b => lexLe a b = true) := by
  induction l with
  | nil => simp [insertName]
  | cons y ys ih =>
    rw [List.pairwise_cons] at hl
    unfold insertName
    split_ifs with hxy
    · refine List.Pairwise.cons ?_ (List.Pairwise.cons hl.1 hl.2)
      intro z hz
      rcases List.mem_cons.mp hz with rfl | hz
      · exact hxy
      · exact lexLe_trans x y z hxy (hl.1 z hz)
    · have hyx : lexLe y x = true := by
        have := lexLe_total x y
        rcases Bool.or_eq_true _ _ |>.mp this with h | h
        · exact absurd h hxy
        · exact h
      refine List.Pairwise.cons ?_ (ih hl.2)
      intro z hz
      rcases mem_insertName.mp hz with rfl | hz
      · exact hyx
      · exact hl.1 z hz

lemma sortNames_pairwise (l : List (List Char)) :
    (sortNames l).Pairwise (fun a b => lexLe a b = true) := by
  induction l with
  | nil => simp [sortNames]
  | cons x xs ih =>
    unfold sortNames
    exact insertName_pairwise x (sortNames xs) ih

lemma payload_closeRec (cur : List Nat) (lastChar : Nat) :
    payload (closeRec cur lastChar) = cur := by
  unfold payload closeRec
  split_ifs with h1 h2 h3 <;> simp_all [List.dropLast_concat]

lemma allPayloads_step (P : Policy) (s : RotState) (e : ReadEv) :
    allPayloads (stepFn P s e) = allPayloads s ++ e.chunk := by
  unfold stepFn
  split_ifs with h
  · unfold allPayloads rotateOp
    simp [payload_closeRec, List.flatten_append]
  · unfold allPayloads
    simp

lemma runLoop_allPayloads (P : Policy) (evs : List ReadEv) :
    ∀ s : RotState, allPayloads (runLoop P s evs)
      = allPayloads s ++ (evs.map ReadEv.chunk).flatten := by
  induction evs with
  | nil => intro s; simp [runLoop]
  | cons e evs ih =>
    intro s
    unfold runLoop at ih ⊢
    rw [List.foldl_cons, ih (stepFn P s e), allPayloads_step]
    simp

lemma getLast?_append_of_ne_nil {l c : List Nat} (h : c ≠ []) :
    (l ++ c).getLast? = c.getLast? := by
  rw [List.getLast?_append]
  rcases List.eq_nil_or_concat c with rfl | ⟨as, a, rfl⟩
  · exact absurd rfl h
  · simp [List.concat_eq_append, List.getLast?_concat]

lemma goodRec_closeRec (cur : List Nat) (a : Nat) (hlast : cur.getLast? = some a) :
    goodRec (closeRec cur a) := by
  unfold closeRec
  split_ifs with h10
  · refine ⟨fun hap => by simp at hap, fun _ => ?_⟩
    rw [show payload ⟨cur, false⟩ = cur from rfl, hlast, h10]
  · refine ⟨fun _ => ⟨?_, ?_⟩, fun hap => by simp at hap⟩
    · rw [show payload ⟨cur ++ [nlByte], true⟩ = (cur ++ [nlByte]).dropLast from rfl,
        List.dropLast_concat]
    · rw [show payload ⟨cur ++ [nlByte], true⟩ = (cur ++ [nlByte]).dropLast from rfl,
        List.dropLast_concat, hlast]
      intro hh
      exact h10 (by injection hh)

lemma goodRec_step (P : Policy) (s : RotState) (e : ReadEv)
    (hne : e.chunk ≠ []) (hs : ∀ f ∈ s.closed, goodRec f) :
    ∀ f ∈ (stepFn P s e).closed, goodRec f := by
  obtain ⟨ch, tm, enm⟩ := e
  simp only at hne
  unfold stepFn
  split_ifs with h
  · unfold rotateOp
    intro f hf
    simp only [List.mem_append, List.mem_singleton] at hf
    rcases hf with hf | rfl
    · exact hs f hf
    · obtain ⟨as, a, rfl⟩ : ∃ as a, ch = as ++ [a] := by
        rcases List.eq_nil_or_concat ch with h0 | ⟨as, a, h0⟩
        · exact absurd h0 hne
        · exact ⟨as, a, by simpa [List.concat_eq_append] using h0⟩
      have hlast : (((as ++ [a] : List Nat).getLast?).getD s.lastChar) = a := by
        rw [List.getLast?_concat]
        rfl
      have hcurlast : ((s.cur ++ (as ++ [a])).getLast?) = some a := by
        rw [getLast?_append_of_ne_nil (by simp), List.getLast?_concat]
      simp only [hlast]
      exact goodRec_closeRec _ a hcurlast
  · intro f hf
    exact hs f hf

lemma runLoop_goodRec (P : Policy) (evs : List ReadEv) :
    ∀ s : RotState, (∀ e ∈ evs, e.chunk ≠ []) → (∀ f ∈ s.closed, goodRec f) →
      ∀ f ∈ (runLoop P s evs).closed, goodRec f := by
  induction evs with
  | nil => intro s _ hs; exact hs
  | cons e evs ih =>
    intro s hne hs
    unfold runLoop at ih ⊢
    rw [List.foldl_cons]
    exact ih (stepFn P s e) (fun e2 he2 => hne e2 (by simp [he2]))
      (goodRec_step P s e (hne e (by simp)) hs)

lemma stepFn_outS (P : Policy) (s : RotState) (e : ReadEv) :
    (stepFn P s e).outS = s.outS ++ e.chunk := by
  unfold stepFn
  split_ifs with h
  · unfold rotateOp
    rfl
  · rfl

lemma runLoop_outS (P : Policy) (evs : List ReadEv) :
    ∀ s : RotState, (runLoop P s evs).outS = s.outS ++ (evs.map ReadEv.chunk).flatten := by
  induction evs with
  | nil => intro s; simp [runLoop]
  | cons e evs ih =>
    intro s
    unfold runLoop at ih ⊢
    rw [List.foldl_cons, ih (stepFn P s e), stepFn_outS]
    simp

-- ======================== the claims ========================

/-- Claim C1: over any finite input stream of nonempty read chunks, the concatenation of the input-derived bytes of all files the copy loop produces, in creation (= name) order, equals the input stream; a closed file carries exactly one appended line terminator precisely when its last written byte was not one, and is otherwise exactly its input bytes. -/
theorem claim_c1 (P : Policy) (t0 : Int) (disk0 : List (List Char))
    (evs : List ReadEv) (hne : ∀ e ∈ evs, e.chunk ≠ []) :
    allPayloads (runLoop P (initState t0 disk0) evs) = (evs.map ReadEv.chunk).flatten
    ∧ ∀ f ∈ (runLoop P (initState t0 disk0) evs).closed,
        (f.appended = true → f.content = payload f ++ [nlByte]
                             ∧ (payload f).getLast? ≠ some nlByte)
        ∧ (f.appended = false → (payload f).getLast? = some nlByte) := by
  constructor
  · rw [runLoop_allPayloads]
    rfl
  · exact runLoop_goodRec P evs (initState t0 disk0) hne (by simp [initState])

/-- Concrete witness for claim C1's theorem: a three-chunk run with one size-triggered rotation. -/
theorem claim_c1_witness :
    (∀ e ∈ wEvs, e.chunk ≠ [])
    ∧ (allPayloads (runLoop wPol (initState 100 []) wEvs)
         = (wEvs.map ReadEv.chunk).flatten
       ∧ ∀ f ∈ (runLoop wPol (initState 100 []) wEvs).closed,
           (f.appended = true → f.content = payload f ++ [nlByte]
                                ∧ (payload f).getLast? ≠ some nlByte)
           ∧ (f.appended = false → (payload f).getLast? = some nlByte)) :=
  ⟨by decide, claim_c1 wPol 100 [] wEvs (by decide)⟩

/-- Claim C2: one iteration of the copy loop closes (rotates) the current file if and only if the file's age reaches the age limit, or the accumulated byte count reaches the size limit and the age is at least one second. -/
theorem claim_c2 (P : Policy) (s : RotState) (e : ReadEv) :
    (stepFn P s e).closed.length = s.closed.length + 1
    ↔ (e.time - s.lastTime ≥ P.ageLimit
       ∨ (s.total + e.chunk.length ≥ P.sizeLimit ∧ e.time - s.lastTime ≥ 1)) := by
  unfold stepFn
  split_ifs with h
  · unfold rotateOp
    simp only [List.length_append, List.length_cons, List.length_nil, true_iff]
    simpa [shouldRotate, Bool.or_eq_true, Bool.and_eq_true, decide_eq_true_eq] using h
  · constructor
    · intro hlen
      simp only at hlen
      omega
    · intro hr
      exfalso
      apply h
      unfold shouldRotate
      rcases hr with h1 | h1
      · simp [h1]
      · simp [h1.1, h1.2]

/-- Claim C3: the sanitising block of `main` clamps silently, for every input value including zero and negatives: the effective age limit is at least 10 seconds, the effective size limit at least 20 bytes, the effective keep count at least 1; a value at or above its floor passes through unchanged and no value is ever rejected. -/
theorem claim_c3 (a s k : Int) :
    10 ≤ sanitiseAge a ∧ 20 ≤ sanitiseSize s ∧ 1 ≤ sanitiseKeep k
    ∧ sanitiseAge a = max 10 a ∧ sanitiseSize s = max 20 s ∧ sanitiseKeep k = max 1 k := by
  unfold sanitiseAge sanitiseSize sanitiseKeep
  refine ⟨?_, ?_, ?_, ?_, ?_, ?_⟩ <;> split <;> omega

/-- Claim C4: a digits-only `--age`/`--size` argument parses verbatim, and digits followed by one recognized unit character parse to the numeric value times the unit multiplier (m=60, h=3600, d=86400, w=604800 seconds; K=1000, M=1000000, G=1000000000 bytes). -/
theorem claim_c4 (ds : List Char) (h1 : ds ≠ []) (h2 : ∀ c ∈ ds, c.isDigit = true) :
    ageFromArg ds = some ((digitsVal ds : Int))
    ∧ sizeFromArg ds = some ((digitsVal ds : Int))
    ∧ (∀ u mult, (u, mult) ∈ ageUnits → ageFromArg (ds ++ [u]) = some ((digitsVal ds : Int) * mult))
    ∧ (∀ u mult, (u, mult) ∈ sizeUnits → sizeFromArg (ds ++ [u]) = some ((digitsVal ds : Int) * mult)) := by
  refine ⟨?_, ?_, ?_, ?_⟩
  · unfold ageFromArg
    rw [scanLdC_digits_only ds h1 h2]
  · unfold sizeFromArg
    rw [scanLdC_digits_only ds h1 h2]
  · intro u mult hm
    simp only [ageUnits, List.mem_cons, Prod.mk.injEq, List.not_mem_nil, or_false] at hm
    rcases hm with ⟨rfl, rfl⟩ | ⟨rfl, rfl⟩ | ⟨rfl, rfl⟩ | ⟨rfl, rfl⟩ <;>
      · unfold ageFromArg
        rw [scanLdC_digits_unit ds _ [] h1 h2 (by decide)]
        simp
  · intro u mult hm
    simp only [sizeUnits, List.mem_cons, Prod.mk.injEq, List.not_mem_nil, or_false] at hm
    rcases hm with ⟨rfl, rfl⟩ | ⟨rfl, rfl⟩ | ⟨rfl, rfl⟩ <;>
      · unfold sizeFromArg
        rw [scanLdC_digits_unit ds _ [] h1 h2 (by decide)]
        simp

/-- Concrete witness for claim C4's theorem at the digit string 42. -/
theorem claim_c4_witness :
    (['4','2'] : List Char) ≠ [] ∧ (∀ c ∈ (['4','2'] : List Char), c.isDigit = true)
    ∧ (ageFromArg ['4','2'] = some ((digitsVal ['4','2'] : Int))
       ∧ sizeFromArg ['4','2'] = some ((digitsVal ['4','2'] : Int))
       ∧ (∀ u mult, (u, mult) ∈ ageUnits →
            ageFromArg (['4','2'] ++ [u]) = some ((digitsVal ['4','2'] : Int) * mult))
       ∧ (∀ u mult, (u, mult) ∈ sizeUnits →
            sizeFromArg (['4','2'] ++ [u]) = some ((digitsVal ['4','2'] : Int) * mult))) :=
  ⟨by decide, by decide, claim_c4 ['4','2'] (by decide) (by decide)⟩

/-- Claim C5, counterexample: the argument 10dx is not digits followed by at most one unit character, and its trailing character x is unrecognized, so the claim requires parsing to fail; the code accepts it as 10 days because only the first character after the digits is examined and the rest is ignored. -/
theorem claim_c5_cex :
    ageFromArg ['1','0','d','x'] = some 864000
    ∧ ageFromArg ['1','0','d','x'] ≠ none := by
  constructor
  · decide
  · decide

/-- Claim C5, amended: parsing of a duration or size argument fails exactly when the single character immediately following the digits is neither a space nor a recognized unit character, or when no number can be scanned at all; any characters beyond the first post-digit character are ignored. -/
theorem claim_c5 (ds : List Char) (u : Char) (rest : List Char) (s : List Char)
    (h1 : ds ≠ []) (h2 : ∀ c ∈ ds, c.isDigit = true) (h3 : u.isDigit = false)
    (hs : scanNum s = none) :
    (u ∉ [' ', 'm', 'h', 'd', 'w'] → ageFromArg (ds ++ u :: rest) = none)
    ∧ (u ∉ [' ', 'K', 'M', 'G'] → sizeFromArg (ds ++ u :: rest) = none)
    ∧ ageFromArg s = none ∧ sizeFromArg s = none := by
  have hscan := scanLdC_digits_unit ds u rest h1 h2 h3
  refine ⟨?_, ?_, ?_, ?_⟩
  · intro hu
    simp only [List.mem_cons, List.not_mem_nil, or_false, not_or] at hu
    unfold ageFromArg
    rw [hscan]
    simp only [hu.1, hu.2.1, hu.2.2.1, hu.2.2.2.1, hu.2.2.2.2, if_false]
  · intro hu
    simp only [List.mem_cons, List.not_mem_nil, or_false, not_or] at hu
    unfold sizeFromArg
    rw [hscan]
    simp only [hu.1, hu.2.1, hu.2.2.1, hu.2.2.2, if_false]
  · unfold ageFromArg scanLdC
    rw [hs]
  · unfold sizeFromArg scanLdC
    rw [hs]

/-- Concrete witness for claim C5's amended theorem: 10xd fails on the unrecognized x, abc fails with no number scanned. -/
theorem claim_c5_witness :
    (['1','0'] : List Char) ≠ [] ∧ ('x' : Char).isDigit = false
    ∧ scanNum ['a','b','c'] = none
    ∧ ageFromArg (['1','0'] ++ 'x' :: ['d']) = none
    ∧ sizeFromArg (['1','0'] ++ 'x' :: ['d']) = none
    ∧ ageFromArg ['a','b','c'] = none ∧ sizeFromArg ['a','b','c'] = none := by
  have h := claim_c5 ['1','0'] 'x' ['d'] ['a','b','c']
    (by decide) (by decide) (by decide) (by decide)
  exact ⟨by decide, by decide, by decide,
    h.1 (by decide), h.2.1 (by decide), h.2.2.1, h.2.2.2⟩

/-- Claim C6: on the sorted list of matching rotation files, when its length n exceeds the (nonnegative) keep count, the purge deletes exactly the n - keep lexicographically smallest names and keeps exactly keep names, every deleted name sorting at or below every kept one; when n is at most the keep count it deletes nothing. -/
theorem claim_c6 (entries : List (List Char)) (stemU : List Char) (keepN : Int)
    (hk : 0 ≤ keepN) :
    ((listLogFiles entries stemU).length ≤ keepN.toNat →
      (purgeSelect (listLogFiles entries stemU) keepN).1 = [])
    ∧ (keepN.toNat < (listLogFiles entries stemU).length →
      (purgeSelect (listLogFiles entries stemU) keepN).1
         = (listLogFiles entries stemU).take
             ((listLogFiles entries stemU).length - keepN.toNat)
      ∧ (purgeSelect (listLogFiles entries stemU) keepN).2
         = (listLogFiles entries stemU).drop
             ((listLogFiles entries stemU).length - keepN.toNat)
      ∧ (purgeSelect (listLogFiles entries stemU) keepN).2.length = keepN.toNat
      ∧ ∀ d ∈ (purgeSelect (listLogFiles entries stemU) keepN).1,
          ∀ r ∈ (purgeSelect (listLogFiles entries stemU) keepN).2, lexLe d r = true) := by
  set ms := listLogFiles entries stemU with hms
  unfold purgeSelect
  rw [purgeLoop_eq]
  have hsor : ms.Pairwise (fun a b => lexLe a b = true) := by
    rw [hms]
    unfold listLogFiles
    exact sortNames_pairwise _
  constructor
  · intro hle
    have h0 : (((ms.length : Int) - keepN) - 0).toNat = 0 := by omega
    rw [h0]
    rfl
  · intro hlt
    have h0 : (((ms.length : Int) - keepN) - 0).toNat = ms.length - keepN.toNat := by omega
    rw [h0]
    refine ⟨rfl, rfl, ?_, ?_⟩
    · rw [List.length_drop]
      omega
    · intro d hd r hr
      have hp : (ms.take (ms.length - keepN.toNat)
                  ++ ms.drop (ms.length - keepN.toNat)).Pairwise
                  (fun a b => lexLe a b = true) := by
        rwa [List.take_append_drop]
      exact (List.pairwise_append.mp hp).2.2 d hd r hr

/-- Concrete witness for claim C6's theorem: the spec's purge example (keep 2 of 3 files with stem p) deletes exactly the oldest name. -/
theorem claim_c6_witness :
    (0 : Int) ≤ 2
    ∧ (((listLogFiles exampleNames (mkStemU ['p'])).length ≤ (2 : Int).toNat →
        (purgeSelect (listLogFiles exampleNames (mkStemU ['p'])) 2).1 = [])
      ∧ ((2 : Int).toNat < (listLogFiles exampleNames (mkStemU ['p'])).length →
        (purgeSelect (listLogFiles exampleNames (mkStemU ['p'])) 2).1
           = (listLogFiles exampleNames (mkStemU ['p'])).take
               ((listLogFiles exampleNames (mkStemU ['p'])).length - (2 : Int).toNat)
        ∧ (purgeSelect (listLogFiles exampleNames (mkStemU ['p'])) 2).2
           = (listLogFiles exampleNames (mkStemU ['p'])).drop
               ((listLogFiles exampleNames (mkStemU ['p'])).length - (2 : Int).toNat)
        ∧ (purgeSelect (listLogFiles exampleNames (mkStemU ['p'])) 2).2.length
           = (2 : Int).toNat
        ∧ ∀ d ∈ (purgeSelect (listLogFiles exampleNames (mkStemU ['p'])) 2).1,
            ∀ r ∈ (purgeSelect (listLogFiles exampleNames (mkStemU ['p'])) 2).2,
              lexLe d r = true))
    ∧ (purgeSelect (listLogFiles exampleNames (mkStemU ['p'])) 2).1
        = [['p', '_', '2', '0', '2', '4', '-', '0', '1', '-', '0', '1', '_', '0', '0', '-', '0', '0', '-', '0', '0', '.', 'l', 'o', 'g']] :=
  ⟨by decide, claim_c6 exampleNames (mkStemU ['p']) 2 (by decide), by decide⟩

/-- Claim C7: the directory-entry filter accepts a name iff it is the stem, an underscore, exactly 19 arbitrary characters (no date-validity check), and the four characters .log; the enumeration returns the accepted names sorted ascending by name. -/
theorem claim_c7 (stem nm : List Char) (entries : List (List Char)) :
    (nameFilter (mkStemU stem) nm = true ↔
       ∃ mid : List Char, mid.length = 19 ∧ nm = stem ++ '_' :: (mid ++ dotLog))
    ∧ (listLogFiles entries (mkStemU stem)).Pairwise (fun a b => lexLe a b = true)
    ∧ (listLogFiles entries (mkStemU stem)).Perm
        (entries.filter (nameFilter (mkStemU stem))) := by
  refine ⟨?_, ?_, ?_⟩
  · unfold nameFilter
    constructor
    · intro h
      by_cases hl : nm.length = (mkStemU stem).length + 23
      · rw [if_pos hl] at h
        simp only [Bool.and_eq_true, decide_eq_true_eq] at h
        obtain ⟨htake, hdrop⟩ := h
        refine ⟨(nm.drop (mkStemU stem).length).take 19, ?_, ?_⟩
        · rw [List.length_take, List.length_drop, hl]
          simp
        · have h3 : (nm.drop (mkStemU stem).length).drop 19 = dotLog := by
            rw [List.drop_drop]
            rw [show (mkStemU stem).length + 19 = nm.length - 4 by omega]
            exact hdrop
          have h2 : nm.drop (mkStemU stem).length
              = (nm.drop (mkStemU stem).length).take 19 ++ dotLog := by
            conv_lhs => rw [← List.take_append_drop 19 (nm.drop (mkStemU stem).length)]
            rw [h3]
          calc nm = nm.take (mkStemU stem).length ++ nm.drop (mkStemU stem).length :=
                (List.take_append_drop _ _).symm
            _ = mkStemU stem ++ ((nm.drop (mkStemU stem).length).take 19 ++ dotLog) := by
                rw [htake, ← h2]
            _ = stem ++ '_' :: ((nm.drop (mkStemU stem).length).take 19 ++ dotLog) := by
                unfold mkStemU
                simp
      · rw [if_neg hl] at h
        exact absurd h (by simp)
    · rintro ⟨mid, hmid, rfl⟩
      have hrw : stem ++ '_' :: (mid ++ dotLog) = (mkStemU stem ++ mid) ++ dotLog := by
        unfold mkStemU
        simp
      have hl : (stem ++ '_' :: (mid ++ dotLog)).length = (mkStemU stem).length + 23 := by
        unfold mkStemU dotLog
        simp [hmid]
      rw [if_pos hl]
      simp only [Bool.and_eq_true, decide_eq_true_eq]
      constructor
      · rw [hrw]
        rw [show mkStemU stem ++ mid ++ dotLog = mkStemU stem ++ (mid ++ dotLog) by simp]
        exact List.take_left _ _
      · rw [hl, hrw]
        rw [show (mkStemU stem).length + 23 - 4 = (mkStemU stem ++ mid).length by
          simp [hmid]]
        exact List.drop_left _ _
  · exact sortNames_pairwise _
  · exact sortNames_perm _

/-- Claim C8: a rotation is exactly the sequential composition of: appending a line terminator when the last written byte was not one, closing the current file, opening the next file (purge first, then name and create), and resetting the byte counter to 0 and the creation timestamp to the current time. -/
theorem claim_c8 (P : Policy) (s : RotState) (now : Int) (nm : List Char) :
    rotateOp P s now nm
      = stepReset (stepCreate (stepPurge P (stepCloseCur (stepAppendTerm s))) nm) now := by
  unfold rotateOp openNextDisk stepAppendTerm stepCloseCur stepPurge stepCreate stepReset
    closeRec
  by_cases h : s.lastChar = nlByte
  · rw [if_pos h, if_pos h]
  · rw [if_neg h, if_neg h]

/-- Claim C9: bytes reach standard output and the log files in exactly the order they were read, and a read chunk is never split across a rotation: the chunk that triggers a rotation is written entirely to the file being closed, and the new current file starts empty, so the next chunk goes to the new file. -/
theorem claim_c9 (P : Policy) (s : RotState) (e : ReadEv) (t0 : Int)
    (disk0 : List (List Char)) (evs : List ReadEv) :
    (stepFn P s e).outS = s.outS ++ e.chunk
    ∧ (runLoop P (initState t0 disk0) evs).outS = (evs.map ReadEv.chunk).flatten
    ∧ allPayloads (runLoop P (initState t0 disk0) evs) = (evs.map ReadEv.chunk).flatten
    ∧ (shouldRotate P (e.time - s.lastTime) (s.total + e.chunk.length) = true →
        ∃ f, (stepFn P s e).closed = s.closed ++ [f]
          ∧ payload f = s.cur ++ e.chunk
          ∧ e.chunk <:+ payload f
          ∧ (stepFn P s e).cur = []) := by
  refine ⟨?_, ?_, ?_, ?_⟩
  · exact stepFn_outS P s e
  · rw [runLoop_outS]
    rfl
  · rw [runLoop_allPayloads]
    rfl
  · intro h
    refine ⟨closeRec (s.cur ++ e.chunk) ((e.chunk.getLast?).getD s.lastChar), ?_, ?_, ?_, ?_⟩
    · unfold stepFn
      rw [if_pos h]
      rfl
    · exact payload_closeRec _ _
    · rw [payload_closeRec]
      exact ⟨s.cur, rfl⟩
    · unfold stepFn
      rw [if_pos h]
      rfl

/-- Claim C10: the `--keep` argument can never cause an error exit: with `atoi` semantics an argument with no scannable number becomes 0, trailing garbage after the digits is ignored, and the sanitised keep count is always at least 1. -/
theorem claim_c10 (s ds rest : List Char)
    (h1 : ds ≠ []) (h2 : ∀ c ∈ ds, c.isDigit = true)
    (h3 : ∀ c, rest.head? = some c → c.isDigit = false) :
    1 ≤ sanitiseKeep (atoiChars s)
    ∧ (scanNum s = none → atoiChars s = 0)
    ∧ atoiChars (ds ++ rest) = (digitsVal ds : Int) := by
  refine ⟨?_, ?_, ?_⟩
  · unfold sanitiseKeep
    split <;> omega
  · intro hs
    cases hsp : s.dropWhile isSpc with
    | nil => unfold atoiChars; rw [hsp]
    | cons c r =>
      rw [scanNum_of_drop_cons hsp] at hs
      rw [atoiChars_of_drop_cons hsp]
      by_cases hc : c = '-'
      · rw [if_pos hc] at hs ⊢
        have ht : r.takeWhile Char.isDigit = [] := by
          by_contra h
          rw [if_neg h] at hs
          exact Option.noConfusion hs
        rw [ht]
        simp [digitsVal]
      · rw [if_neg hc] at hs ⊢
        by_cases hc2 : c = '+'
        · rw [if_pos hc2] at hs ⊢
          have ht : r.takeWhile Char.isDigit = [] := by
            by_contra h
            rw [if_neg h] at hs
            exact Option.noConfusion hs
          rw [ht]
          simp [digitsVal]
        · rw [if_neg hc2] at hs ⊢
          have ht : (c :: r).takeWhile Char.isDigit = [] := by
            by_contra h
            rw [if_neg h] at hs
            exact Option.noConfusion hs
          rw [ht]
          simp [digitsVal]
  · obtain ⟨d, ds2, rfl⟩ : ∃ d ds2, ds = d :: ds2 := by
      cases ds with
      | nil => exact absurd rfl h1
      | cons d ds2 => exact ⟨d, ds2, rfl⟩
    have hd : d.isDigit = true := h2 d (by simp)
    have hspc : isSpc d = false := isSpc_eq_false_of_digit hd
    have htk := takeWhile_append_all (p := Char.isDigit) (d :: ds2) rest h2 h3
    unfold atoiChars
    rw [List.cons_append, List.dropWhile_cons, hspc]
    simp only [Bool.false_eq_true, if_false]
    rw [if_neg (ne_dash_of_digit hd), if_neg (ne_plus_of_digit hd)]
    rw [← List.cons_append, htk.1]

/-- Concrete witness for claim C10's theorem. -/
theorem claim_c10_witness :
    (['4','2'] : List Char) ≠ [] ∧ (∀ c ∈ (['4','2'] : List Char), c.isDigit = true)
    ∧ (∀ c, (['x','y'] : List Char).head? = some c → c.isDigit = false)
    ∧ (1 ≤ sanitiseKeep (atoiChars ['a','b','c'])
       ∧ (scanNum ['a','b','c'] = none → atoiChars ['a','b','c'] = 0)
       ∧ atoiChars (['4','2'] ++ ['x','y']) = (digitsVal ['4','2'] : Int)) :=
  ⟨by decide, by decide, by decide,
   claim_c10 ['a','b','c'] ['4','2'] ['x','y'] (by decide) (by decide) (by decide)⟩
